import Mathlib

/-!
Verification of the hierarchical metrics registry (`monitoring` package) and
the TLS configuration gate (`transport/tlscommon/config.go`) of
elastic-agent-libs.

The registry implementation itself ships outside the files at hand (only its
test file `monitoring/registry_test.go` is available), so the registry data
model and operations below are modelled from the specification's description
of the data model (§3), path resolver (§4.1), registration (§4.2), lookup
(§4.3), removal (§4.4), iteration (§4.5) and clearing (§4.6), keeping the
field and operation names of the Go API (`Registry{name, entries, opts}`,
`Get`, `GetRegistry`, `GetOrCreateRegistry`, `Add`, `Remove`, `Do`, `Clear`).

The TLS part (`Config.IsEnabled`, `LoadTLSConfig`) is embedded directly from
`src/transport/tlscommon/config.go`.
-/

set_option autoImplicit false

namespace Monitoring

/-- Modelled from the spec: the visibility mode attached to each metric entry
at registration time, and also the filter passed to `Do` — *reported*
(exportable) vs *full-only*; a "full" filter visits every metric, a
"reported" filter visits only metrics registered as exportable. -/
inductive Mode where
  | reported
  | full
deriving DecidableEq, Repr

/-- Modelled from the spec: opaque metric value handles ("the registry is
type-agnostic and stores opaque value handles"); the concrete kinds created
by `NewInt` / `NewString` / `NewFloat` are distinguished by constructor, the
float payload is kept as an opaque token since the registry never interprets
it. -/
inductive MetricValue where
  | intVal (v : Int)
  | strVal (s : String)
  | floatTok (id : Nat)
deriving DecidableEq, Repr

/-- Modelled from the spec: an Entry is "a tagged union stored under a name
inside a node — either a Value or an owned child Registry"; a Registry node
owns `name` (fully-qualified dotted path, fixed at creation), `entries`
(mapping from local single-segment name to Entry, unique keys) and its
default visibility mode (the `opts` of the Go struct). The map is modelled
as an association list whose well-formed instances have pairwise distinct
keys. -/
inductive Entry where
  | metric (v : MetricValue) (mode : Mode)
  | registry (name : String) (defaultMode : Mode) (entries : List (String × Entry))

/-- Lookup of a local (single-segment) name in a node's entries map. -/
def findEntry : List (String × Entry) → String → Option Entry
  | [], _ => none
  | (k, t) :: rest, s => if k = s then some t else findEntry rest s

/-- Replacement of the entry stored under an existing local name (models an
in-place update of the Go map slot). -/
def updateEntry : List (String × Entry) → String → Entry → List (String × Entry)
  | [], _, _ => []
  | (k, t) :: rest, s, t' =>
    if k = s then (k, t') :: rest else (k, t) :: updateEntry rest s t'

/-- Deletion of a local name from a node's entries map (models Go `delete`). -/
def eraseEntry : List (String × Entry) → String → List (String × Entry)
  | [], _ => []
  | (k, t) :: rest, s => if k = s then rest else (k, t) :: eraseEntry rest s

/-- Modelled from the spec: the path resolver "splits a dotted name into an
ordered sequence of segments" (Go `strings.Split(name, ".")`, which keeps
empty segments). -/
def splitName (s : String) : List String := (s.data.splitOn '.').map (fun l => ⟨l⟩)

/-- Modelled from the spec (§4.1, read-only traversal): walks existing nodes
only, returning "not found" the instant a segment is missing or a segment
resolves to a metric when a sub-registry was expected; no mutation ever
occurs on this path. Resolves a segment list relative to the given entry. -/
def getEntryRO : Entry → List String → Option Entry
  | t, [] => some t
  | .metric _ _, _ :: _ => none
  | .registry _ _ es, s :: rest =>
    match findEntry es s with
    | none => none
    | some child => getEntryRO child rest

/-- Modelled from the spec (§4.3): `Get(name)` resolves the path read-only;
if it terminates on a metric Entry, returns the metric handle; if it
terminates on a sub-registry, or any segment is unresolved, returns "not
found". Callable from any node, resolving relative to that node. -/
def Entry.get (t : Entry) (name : String) : Option MetricValue :=
  match getEntryRO t (splitName name) with
  | some (.metric v _) => some v
  | _ => none

/-- Modelled from the spec (§4.3): `GetRegistry(name)` resolves the path
read-only and returns the sub-registry node only if the full path names a
sub-registry; otherwise "not found". -/
def Entry.getRegistry (t : Entry) (name : String) : Option Entry :=
  match getEntryRO t (splitName name) with
  | some (.registry n dm es) => some (.registry n dm es)
  | _ => none

/-- Modelled from the spec (§4.1, create-missing traversal): walks segment by
segment; if a segment is absent, creates a new child Registry node whose
name is the parent's name plus the segment (and the parent's default mode);
if the segment already holds a metric Entry, the whole call fails, returning
none. Returns the resolved/created node together with the updated tree. -/
def getOrCreateGo : Entry → List String → Option Entry × Entry
  | .metric v m, _ => (none, .metric v m)
  | .registry n dm es, [] => (some (.registry n dm es), .registry n dm es)
  | .registry n dm es, s :: rest =>
    match findEntry es s with
    | some child =>
      let r := getOrCreateGo child rest
      (r.1, .registry n dm (updateEntry es s r.2))
    | none =>
      let r := getOrCreateGo (.registry (n ++ "." ++ s) dm []) rest
      (r.1, .registry n dm (es ++ [(s, r.2)]))

/-- Modelled from the spec (§4.1): `GetOrCreateRegistry` over a dotted name. -/
def Entry.getOrCreateRegistry (t : Entry) (name : String) : Option Entry × Entry :=
  getOrCreateGo t (splitName name)

/-- Modelled from the spec (§4.1/§4.2): metric registration "reuses
create-missing resolution for all but the final segment, then attaches the
metric at the final segment; if the final segment is already occupied by any
Entry kind, registration fails rather than silently overwriting" (the
recommended fail-on-occupied policy of §9 for same-kind collisions).
Returns a success flag and the updated tree. -/
def addGo : Entry → List String → MetricValue → Mode → Bool × Entry
  | t, [], _, _ => (false, t)
  | .metric v m, _ :: _, _, _ => (false, .metric v m)
  | .registry n dm es, [s], v, m =>
    match findEntry es s with
    | some _ => (false, .registry n dm es)
    | none => (true, .registry n dm (es ++ [(s, .metric v m)]))
  | .registry n dm es, s :: s' :: rest, v, m =>
    match findEntry es s with
    | some child =>
      let r := addGo child (s' :: rest) v m
      (r.1, .registry n dm (updateEntry es s r.2))
    | none =>
      let r := addGo (.registry (n ++ "." ++ s) dm []) (s' :: rest) v m
      (r.1, .registry n dm (es ++ [(s, r.2)]))

/-- Modelled from the spec (§4.2): `Add(name, value, mode)` registers a
metric under a dotted name relative to the given node. -/
def Entry.add (t : Entry) (name : String) (v : MetricValue) (m : Mode) : Bool × Entry :=
  addGo t (splitName name) v m

/-- Modelled from the spec (§4.4): `Remove(name)` resolved relative to a
node — deletes the single entry at the final segment when the path resolves
to it (a metric, or a sub-registry together with its whole subtree, since
entries are owned); if the path does not resolve, the call is a no-op. -/
def removeGo : Entry → List String → Entry
  | t, [] => t
  | .metric v m, _ :: _ => .metric v m
  | .registry n dm es, [s] => .registry n dm (eraseEntry es s)
  | .registry n dm es, s :: s' :: rest =>
    match findEntry es s with
    | none => .registry n dm es
    | some child => .registry n dm (updateEntry es s (removeGo child (s' :: rest)))

/-- Modelled from the spec (§4.4): `Remove` over a dotted name. -/
def Entry.remove (t : Entry) (name : String) : Entry :=
  removeGo t (splitName name)

/-- Modelled from the spec (§4.6): `Clear` atomically empties a node's
entries, restoring it to newly-created state. -/
def Entry.clear : Entry → Entry
  | .metric v m => .metric v m
  | .registry n dm _ => .registry n dm []

/-- Dotted concatenation used by `Do` to build fully-qualified root-relative
names (the root's own prefix is empty). -/
def joinName (p s : String) : String := if p = "" then s else p ++ "." ++ s

/-- Modelled from the spec (§4.5): a metric entry's mode is compatible with
the requested filter iff the filter is "full" (visits every metric
regardless of its mode) or the metric was registered as exportable. -/
def modeMatches (filter m : Mode) : Bool := filter = .full || m = .reported

mutual
/-- Modelled from the spec (§4.5): `Do(mode, visitor)` walks every reachable
node from the chosen root, invoking the visitor with each compatible
metric's fully-qualified root-relative dotted name and its value snapshot.
The visit is represented by the list of (name, value) pairs passed to the
visitor, in traversal order (an order callers must not rely on). -/
def doVisit (filter : Mode) (pre : String) : Entry → List (String × MetricValue)
  | .metric v m => if modeMatches filter m then [(pre, v)] else []
  | .registry _ _ es => doVisitEntries filter pre es

/-- The entries-map part of the `Do` traversal. -/
def doVisitEntries (filter : Mode) (pre : String) :
    List (String × Entry) → List (String × MetricValue)
  | [] => []
  | (k, t) :: rest => doVisit filter (joinName pre k) t ++ doVisitEntries filter pre rest
end

/-- `Do` started at a node, with the empty (root-relative) name prefix. -/
def Entry.doAll (t : Entry) (filter : Mode) : List (String × MetricValue) :=
  doVisit filter "" t

/-- A freshly created registry node: given name, given default mode, no
entries (`NewRegistry`). -/
def mkRoot (name : String) (dm : Mode) : Entry := .registry name dm []

mutual
/-- Well-formedness of a node's entries map: keys are pairwise distinct
(association-list image of the Go map) — holds at every node of the tree. -/
def wfEntries : List (String × Entry) → Bool
  | [] => true
  | (k, t) :: rest => !(findEntry rest k).isSome && wfTree t && wfEntries rest

/-- Well-formedness of a whole tree: every node's entries map has pairwise
distinct keys. -/
def wfTree : Entry → Bool
  | .metric _ _ => true
  | .registry _ _ es => wfEntries es
end

mutual
/-- Every local key in the tree is a sane path segment: nonempty and free of
the `.` separator (true of every segment produced by splitting a dotted
name that has no empty segments). -/
def cleanEntries : List (String × Entry) → Bool
  | [] => true
  | (k, t) :: rest => !(k = "") && !(k.data.contains '.') && cleanTree t && cleanEntries rest

/-- Tree-wide key sanity (see `cleanEntries`). -/
def cleanTree : Entry → Bool
  | .metric _ _ => true
  | .registry _ _ es => cleanEntries es
end

mutual
/-- Spec invariant 1 (§3): for any node, `name` is either the configured
root name or the parent node's `name` + "." + the node's local segment,
fixed at creation. `namesOkEntries p es` states it for all nodes of the
entries map of a node named `p`. -/
def namesOkEntries (p : String) : List (String × Entry) → Bool
  | [] => true
  | (_, .metric _ _) :: rest => namesOkEntries p rest
  | (k, .registry n dm es) :: rest =>
    n = p ++ "." ++ k && namesOkTree (.registry n dm es) && namesOkEntries p rest

/-- Spec invariant 1 (§3) for a whole tree rooted at a node. -/
def namesOkTree : Entry → Bool
  | .metric _ _ => true
  | .registry n _ es => namesOkEntries n es
end

/-! ### Basic lemmas about the entries map and the path resolver -/

/-- Induction over a tree with the inductive hypothesis available for every
entry of a node's map. -/
def Entry.strongInd (P : Entry → Prop)
    (hm : ∀ v m, P (.metric v m))
    (hr : ∀ n dm es, (∀ k c, (k, c) ∈ es → P c) → P (.registry n dm es)) :
    ∀ t, P t
  | .metric v m => hm v m
  | .registry n dm es =>
    hr n dm es (fun _k c hkc =>
      have : sizeOf c < 1 + sizeOf n + sizeOf dm + sizeOf es := by
        have h1 := List.sizeOf_lt_of_mem hkc
        have h2 : sizeOf c < sizeOf (_k, c) := by simp
        omega
      Entry.strongInd P hm hr c)
termination_by t => sizeOf t

theorem findEntry_eq_none_iff {es : List (String × Entry)} {s : String} :
    findEntry es s = none ↔ ∀ k c, (k, c) ∈ es → k ≠ s := by
  induction es with
  | nil => simp [findEntry]
  | cons hd tl ih =>
    obtain ⟨k, c⟩ := hd
    simp only [findEntry]
    by_cases hk : k = s
    · subst hk
      simp only [if_pos rfl]
      constructor
      · intro h; exact absurd h (by simp)
      · intro h; exact absurd rfl (h k c (List.mem_cons_self _ _))
    · simp only [if_neg hk]
      rw [ih]
      constructor
      · intro h k' c' hm
        rcases List.mem_cons.1 hm with h1 | h1
        · rw [Prod.mk.injEq] at h1
          intro he; exact hk (h1.1.symm.trans he)
        · exact h k' c' h1
      · intro h k' c' hm
        exact h k' c' (List.mem_cons_of_mem _ hm)

theorem findEntry_mem {es : List (String × Entry)} {s : String} {c : Entry}
    (h : findEntry es s = some c) : (s, c) ∈ es := by
  induction es with
  | nil => simp [findEntry] at h
  | cons hd tl ih =>
    obtain ⟨k, c'⟩ := hd
    by_cases hk : k = s <;> simp [findEntry, hk] at h
    · simp [hk, h]
    · exact List.mem_cons_of_mem _ (ih h)

theorem wfEntries_cons {k : String} {c : Entry} {tl : List (String × Entry)}
    (hwf : wfEntries ((k, c) :: tl) = true) :
    findEntry tl k = none ∧ wfTree c = true ∧ wfEntries tl = true := by
  simp only [wfEntries, Bool.and_eq_true, Bool.not_eq_true'] at hwf
  obtain ⟨⟨h1, h2⟩, h3⟩ := hwf
  refine ⟨?_, h2, h3⟩
  cases hfe : findEntry tl k with
  | none => rfl
  | some c' => rw [hfe] at h1; simp at h1

theorem mem_findEntry_of_wf {es : List (String × Entry)} {s : String} {c : Entry}
    (hwf : wfEntries es = true) (h : (s, c) ∈ es) : findEntry es s = some c := by
  induction es with
  | nil => simp at h
  | cons hd tl ih =>
    obtain ⟨k, c'⟩ := hd
    obtain ⟨h1, h2, h3⟩ := wfEntries_cons hwf
    rcases List.mem_cons.1 h with h4 | h4
    · obtain ⟨h5, h6⟩ := Prod.mk.injEq .. ▸ h4.symm
      simp [findEntry, h5, h6]
    · have hk : k ≠ s := fun he => (findEntry_eq_none_iff.1 h1 s c h4) he.symm
      simp [findEntry, hk]
      exact ih h3 h4

theorem updateEntry_self {es : List (String × Entry)} {s : String} {c : Entry}
    (h : findEntry es s = some c) : updateEntry es s c = es := by
  induction es with
  | nil => simp [updateEntry]
  | cons hd tl ih =>
    obtain ⟨k, c'⟩ := hd
    by_cases hk : k = s
    · simp [findEntry, hk] at h
      simp [updateEntry, hk, h]
    · simp [findEntry, hk] at h
      simp [updateEntry, hk, ih h]

theorem findEntry_updateEntry_self {es : List (String × Entry)} {s : String}
    {c c' : Entry} (h : findEntry es s = some c) :
    findEntry (updateEntry es s c') s = some c' := by
  induction es with
  | nil => simp [findEntry] at h
  | cons hd tl ih =>
    obtain ⟨k, c0⟩ := hd
    by_cases hk : k = s
    · simp [updateEntry, findEntry, hk]
    · simp [findEntry, hk] at h
      simp [updateEntry, findEntry, hk, ih h]

theorem findEntry_updateEntry_ne {es : List (String × Entry)} {s k : String}
    {c' : Entry} (h : k ≠ s) :
    findEntry (updateEntry es s c') k = findEntry es k := by
  induction es with
  | nil => simp [updateEntry]
  | cons hd tl ih =>
    obtain ⟨k0, c0⟩ := hd
    by_cases hk : k0 = s
    · subst hk
      simp [updateEntry, findEntry, Ne.symm h]
    · by_cases hk2 : k0 = k <;> simp [updateEntry, findEntry, hk, hk2, ih, h]

theorem findEntry_append_right {es : List (String × Entry)} {s : String}
    {c : Entry} (h : findEntry es s = none) :
    findEntry (es ++ [(s, c)]) s = some c := by
  induction es with
  | nil => simp [findEntry]
  | cons hd tl ih =>
    obtain ⟨k, c0⟩ := hd
    by_cases hk : k = s <;> simp [findEntry, hk] at h ⊢
    exact ih h

theorem findEntry_append_ne {es : List (String × Entry)} {s k : String}
    {c : Entry} (h : k ≠ s) :
    findEntry (es ++ [(s, c)]) k = findEntry es k := by
  induction es with
  | nil => simp [findEntry, Ne.symm h]
  | cons hd tl ih =>
    obtain ⟨k0, c0⟩ := hd
    by_cases hk : k0 = k <;> simp [findEntry, hk, ih]

theorem eraseEntry_of_none {es : List (String × Entry)} {s : String}
    (h : findEntry es s = none) : eraseEntry es s = es := by
  induction es with
  | nil => simp [eraseEntry]
  | cons hd tl ih =>
    obtain ⟨k, c0⟩ := hd
    by_cases hk : k = s
    · simp [findEntry, hk] at h
    · simp [findEntry, hk] at h
      simp [eraseEntry, hk]
      exact ih h

theorem findEntry_eraseEntry_self {es : List (String × Entry)} {s : String}
    (hwf : wfEntries es = true) : findEntry (eraseEntry es s) s = none := by
  induction es with
  | nil => simp [eraseEntry, findEntry]
  | cons hd tl ih =>
    obtain ⟨k, c0⟩ := hd
    obtain ⟨h1, _h2, h3⟩ := wfEntries_cons hwf
    by_cases hk : k = s
    · subst hk
      simp [eraseEntry, h1]
    · simp [eraseEntry, hk, findEntry, ih h3]

theorem findEntry_eraseEntry_ne {es : List (String × Entry)} {s k : String}
    (h : k ≠ s) : findEntry (eraseEntry es s) k = findEntry es k := by
  induction es with
  | nil => simp [eraseEntry]
  | cons hd tl ih =>
    obtain ⟨k0, c0⟩ := hd
    by_cases hk : k0 = s
    · subst hk
      simp [eraseEntry, findEntry, Ne.symm h]
    · by_cases hk2 : k0 = k <;> simp [eraseEntry, findEntry, hk, hk2, ih, h]

/-! ### Well-formedness is preserved by the map operations -/

theorem wfEntries_updateEntry {es : List (String × Entry)} {s : String} {c : Entry}
    (hwf : wfEntries es = true) (hc : wfTree c = true) :
    wfEntries (updateEntry es s c) = true := by
  induction es with
  | nil => simpa [updateEntry] using hwf
  | cons hd tl ih =>
    obtain ⟨k, c0⟩ := hd
    obtain ⟨h1, h2, h3⟩ := wfEntries_cons hwf
    by_cases hk : k = s
    · simp [updateEntry, hk, wfEntries, h1, h2, h3, hc, hk ▸ h1]
    · have h4 : findEntry (updateEntry tl s c) k = none := by
        rw [findEntry_updateEntry_ne hk, h1]
      simp [updateEntry, hk, wfEntries, h2, ih h3, h4]

theorem wfEntries_append {es : List (String × Entry)} {s : String} {c : Entry}
    (hwf : wfEntries es = true) (hc : wfTree c = true)
    (hnew : findEntry es s = none) :
    wfEntries (es ++ [(s, c)]) = true := by
  induction es with
  | nil => simp [wfEntries, findEntry, hc]
  | cons hd tl ih =>
    obtain ⟨k, c0⟩ := hd
    obtain ⟨h1, h2, h3⟩ := wfEntries_cons hwf
    by_cases hk : k = s <;> simp [findEntry, hk] at hnew
    have h4 : findEntry (tl ++ [(s, c)]) k = none := by
      rw [findEntry_append_ne hk, h1]
    simp [wfEntries, h2, h4, ih h3 hnew]

theorem wfEntries_eraseEntry {es : List (String × Entry)} {s : String}
    (hwf : wfEntries es = true) : wfEntries (eraseEntry es s) = true := by
  induction es with
  | nil => simpa [eraseEntry] using hwf
  | cons hd tl ih =>
    obtain ⟨k, c0⟩ := hd
    obtain ⟨h1, h2, h3⟩ := wfEntries_cons hwf
    by_cases hk : k = s
    · simpa [eraseEntry, hk] using h3
    · have h4 : findEntry (eraseEntry tl s) k = none := by
        cases hfe : findEntry (eraseEntry tl s) k with
        | none => rfl
        | some c' =>
          by_cases hks : k = s
          · exact absurd hks hk
          · rw [findEntry_eraseEntry_ne hks, h1] at hfe; exact hfe.symm ▸ hfe
      simp [eraseEntry, hk, wfEntries, h2, ih h3, h4]

theorem wfTree_of_findEntry {es : List (String × Entry)} {s : String} {c : Entry}
    (hwf : wfEntries es = true) (h : findEntry es s = some c) : wfTree c = true := by
  induction es with
  | nil => simp [findEntry] at h
  | cons hd tl ih =>
    obtain ⟨k, c0⟩ := hd
    obtain ⟨_h1, h2, h3⟩ := wfEntries_cons hwf
    by_cases hk : k = s <;> simp [findEntry, hk] at h
    · exact h ▸ h2
    · exact ih h3 h

/-! ### Lemmas about read-only path resolution -/

theorem getEntryRO_append : ∀ (t : Entry) (p q : List String),
    getEntryRO t (p ++ q) = (getEntryRO t p).bind (fun c => getEntryRO c q) := by
  intro t p
  induction p generalizing t with
  | nil => intro q; simp [getEntryRO]
  | cons s rest ih =>
    intro q
    cases t with
    | metric v m => simp [getEntryRO]
    | registry n dm es =>
      simp only [List.cons_append, getEntryRO]
      cases hfe : findEntry es s with
      | none => simp
      | some child => simp [ih child]

theorem wfTree_getEntryRO : ∀ (t : Entry) (p : List String) (c : Entry),
    wfTree t = true → getEntryRO t p = some c → wfTree c = true := by
  intro t p
  induction p generalizing t with
  | nil =>
    intro c hwf h
    simp [getEntryRO] at h
    exact h ▸ hwf
  | cons s rest ih =>
    intro c hwf h
    cases t with
    | metric v m => simp [getEntryRO] at h
    | registry n dm es =>
      simp only [getEntryRO] at h
      cases hfe : findEntry es s with
      | none => rw [hfe] at h; simp at h
      | some child =>
        rw [hfe] at h
        exact ih child c (wfTree_of_findEntry hwf hfe) h

/-! ### Lemmas about create-missing resolution (`GetOrCreateRegistry`) -/

/-- Inside an empty (freshly created) registry, create-missing resolution
always succeeds: every segment it meets is created fresh. -/
theorem getOrCreateGo_empty_isSome : ∀ (p : List String) (n : String) (dm : Mode),
    ((getOrCreateGo (.registry n dm []) p).1).isSome = true := by
  intro p
  induction p with
  | nil => intro n dm; simp [getOrCreateGo]
  | cons s rest ih =>
    intro n dm
    simp only [getOrCreateGo, findEntry]
    exact ih (n ++ "." ++ s) dm

/-- A failing create-missing call leaves the tree exactly as it was. -/
theorem getOrCreateGo_none_unchanged : ∀ (p : List String) (t : Entry),
    (getOrCreateGo t p).1 = none → (getOrCreateGo t p).2 = t := by
  intro p
  induction p with
  | nil => intro t; cases t <;> simp [getOrCreateGo]
  | cons s rest ih =>
    intro t
    cases t with
    | metric v m => simp [getOrCreateGo]
    | registry n dm es =>
      simp only [getOrCreateGo]
      cases hfe : findEntry es s with
      | some child =>
        simp only
        intro h
        rw [ih child h, updateEntry_self hfe]
      | none =>
        simp only
        intro h
        have h2 := getOrCreateGo_empty_isSome rest (n ++ "." ++ s) dm
        rw [h] at h2
        simp at h2

/-- Create-missing resolution fails (returns absent) on any path that
resolves to a metric entry: the final type check rejects the metric. -/
theorem getOrCreateGo_metric_none : ∀ (p : List String) (t : Entry)
    (v : MetricValue) (m : Mode),
    getEntryRO t p = some (.metric v m) → (getOrCreateGo t p).1 = none := by
  intro p
  induction p with
  | nil =>
    intro t v m h
    simp only [getEntryRO, Option.some.injEq] at h
    subst h
    rfl
  | cons s rest ih =>
    intro t v m h
    cases t with
    | metric v0 m0 => rfl
    | registry n dm es =>
      simp only [getEntryRO] at h
      cases hfe : findEntry es s with
      | none => rw [hfe] at h; simp at h
      | some child =>
        rw [hfe] at h
        simp only [getOrCreateGo, hfe]
        exact ih child v m h

/-- After a successful create-missing call, read-only resolution of the same
path on the updated tree finds exactly the returned node. -/
theorem getOrCreateGo_getEntryRO : ∀ (p : List String) (t t' c : Entry),
    getOrCreateGo t p = (some c, t') → getEntryRO t' p = some c := by
  intro p
  induction p with
  | nil =>
    intro t t' c h
    cases t <;> simp [getOrCreateGo] at h
    obtain ⟨h1, h2⟩ := h
    simp [getEntryRO, ← h1, ← h2]
  | cons s rest ih =>
    intro t t' c h
    cases t with
    | metric v m => simp [getOrCreateGo] at h
    | registry n dm es =>
      simp only [getOrCreateGo] at h
      cases hfe : findEntry es s with
      | some child =>
        rw [hfe] at h
        simp only [Prod.mk.injEq] at h
        obtain ⟨h1, h2⟩ := h
        rcases hr : getOrCreateGo child rest with ⟨r1, r2⟩
        rw [hr] at h1 h2
        simp only [getEntryRO, ← h2, findEntry_updateEntry_self hfe]
        exact ih child r2 c (by rw [hr, show r1 = some c from h1])
      | none =>
        rw [hfe] at h
        simp only [Prod.mk.injEq] at h
        obtain ⟨h1, h2⟩ := h
        rcases hr : getOrCreateGo (.registry (n ++ "." ++ s) dm []) rest with ⟨r1, r2⟩
        rw [hr] at h1 h2
        simp only [getEntryRO, ← h2, findEntry_append_right hfe]
        exact ih _ r2 c (by rw [hr, show r1 = some c from h1])

/-- Create-missing resolution is idempotent: repeating a successful call on
the updated tree returns the same node and changes nothing. -/
theorem getOrCreateGo_idem : ∀ (p : List String) (t t' c : Entry),
    getOrCreateGo t p = (some c, t') → getOrCreateGo t' p = (some c, t') := by
  intro p
  induction p with
  | nil =>
    intro t t' c h
    cases t <;> simp [getOrCreateGo] at h
    obtain ⟨h1, h2⟩ := h
    simp [getOrCreateGo, ← h1, ← h2]
  | cons s rest ih =>
    intro t t' c h
    cases t with
    | metric v m => simp [getOrCreateGo] at h
    | registry n dm es =>
      simp only [getOrCreateGo] at h
      cases hfe : findEntry es s with
      | some child =>
        rw [hfe] at h
        simp only [Prod.mk.injEq] at h
        obtain ⟨h1, h2⟩ := h
        rcases hr : getOrCreateGo child rest with ⟨r1, r2⟩
        rw [hr] at h1 h2
        have hfe2 : findEntry (updateEntry es s r2) s = some r2 :=
          findEntry_updateEntry_self hfe
        have ih2 : getOrCreateGo r2 rest = (some c, r2) := ih child r2 c (by rw [hr, show r1 = some c from h1])
        subst h2
        simp only [getOrCreateGo, hfe2, ih2, updateEntry_self hfe2]
      | none =>
        rw [hfe] at h
        simp only [Prod.mk.injEq] at h
        obtain ⟨h1, h2⟩ := h
        rcases hr : getOrCreateGo (.registry (n ++ "." ++ s) dm []) rest with ⟨r1, r2⟩
        rw [hr] at h1 h2
        have hfe2 : findEntry (es ++ [(s, r2)]) s = some r2 :=
          findEntry_append_right hfe
        have ih2 : getOrCreateGo r2 rest = (some c, r2) := ih _ r2 c (by rw [hr, show r1 = some c from h1])
        subst h2
        simp only [getOrCreateGo, hfe2, ih2, updateEntry_self hfe2]

/-- Resolving a concatenated path with create-missing resolution returns the
same node as resolving the first part and then, from the node it denotes,
the second part. -/
theorem getOrCreateGo_append_fst : ∀ (p : List String) (t : Entry) (q : List String),
    (getOrCreateGo t (p ++ q)).1
      = Option.bind (getOrCreateGo t p).1 (fun c => (getOrCreateGo c q).1) := by
  intro p
  induction p with
  | nil =>
    intro t q
    cases t <;> simp [getOrCreateGo]
  | cons s rest ih =>
    intro t q
    cases t with
    | metric v m => simp [getOrCreateGo]
    | registry n dm es =>
      simp only [List.cons_append, getOrCreateGo]
      cases hfe : findEntry es s with
      | some child => simp [ih child]
      | none => simp [ih]

/-- A segment that already resolves to a metric entry makes the whole
create-missing call fail, whatever follows it on the path. -/
theorem getOrCreateGo_collision_none (t : Entry) (p₁ p₂ : List String)
    (v : MetricValue) (m : Mode) (h : getEntryRO t p₁ = some (.metric v m)) :
    (getOrCreateGo t (p₁ ++ p₂)).1 = none := by
  rw [getOrCreateGo_append_fst, getOrCreateGo_metric_none p₁ t v m h]
  rfl

/-- Create-missing resolution preserves well-formedness of the tree. -/
theorem wfTree_getOrCreateGo : ∀ (p : List String) (t : Entry),
    wfTree t = true → wfTree (getOrCreateGo t p).2 = true := by
  intro p
  induction p with
  | nil => intro t hwf; cases t <;> simpa [getOrCreateGo] using hwf
  | cons s rest ih =>
    intro t hwf
    cases t with
    | metric v m => simpa [getOrCreateGo] using hwf
    | registry n dm es =>
      simp only [getOrCreateGo]
      cases hfe : findEntry es s with
      | some child =>
        simp only [wfTree]
        exact wfEntries_updateEntry hwf
          (ih child (wfTree_of_findEntry hwf hfe))
      | none =>
        simp only [wfTree]
        exact wfEntries_append hwf (ih _ (by simp [wfTree, wfEntries])) hfe

/-! ### Lemmas about metric registration (`Add`) -/

/-- Registration into a freshly created (empty) registry always succeeds:
all intermediate segments are created fresh and the final slot is free. -/
theorem addGo_empty_success : ∀ (rest : List String) (s n : String) (dm : Mode)
    (v : MetricValue) (m : Mode),
    (addGo (.registry n dm []) (s :: rest) v m).1 = true := by
  intro rest
  induction rest with
  | nil => intro s n dm v m; simp [addGo, findEntry]
  | cons s' rest' ih =>
    intro s n dm v m
    simp only [addGo, findEntry]
    exact ih s' (n ++ "." ++ s) dm v m

/-- A failing registration leaves the tree exactly as it was. -/
theorem addGo_false_unchanged : ∀ (p : List String) (t : Entry) (v : MetricValue)
    (m : Mode), (addGo t p v m).1 = false → (addGo t p v m).2 = t := by
  intro p
  induction p with
  | nil => intro t v m _h; cases t <;> simp [addGo]
  | cons s rest ih =>
    intro t v m
    cases rest with
    | nil =>
      cases t with
      | metric v0 m0 => simp [addGo]
      | registry n dm es =>
        simp only [addGo]
        cases hfe : findEntry es s with
        | some child => simp
        | none => simp
    | cons s' rest' =>
      cases t with
      | metric v0 m0 => simp [addGo]
      | registry n dm es =>
        simp only [addGo]
        cases hfe : findEntry es s with
        | some child =>
          simp only
          intro h
          rw [ih child v m h, updateEntry_self hfe]
        | none =>
          simp only
          intro h
          have h2 := addGo_empty_success rest' s' (n ++ "." ++ s) dm v m
          rw [h] at h2
          simp at h2

/-- After a successful registration, read-only resolution of the same path
finds exactly the registered metric entry. -/
theorem addGo_getEntryRO : ∀ (p : List String) (t t' : Entry) (v : MetricValue)
    (m : Mode), addGo t p v m = (true, t') → getEntryRO t' p = some (.metric v m) := by
  intro p
  induction p with
  | nil => intro t t' v m h; cases t <;> simp [addGo] at h
  | cons s rest ih =>
    intro t t' v m h
    cases rest with
    | nil =>
      cases t with
      | metric v0 m0 => simp [addGo] at h
      | registry n dm es =>
        simp only [addGo] at h
        cases hfe : findEntry es s with
        | some child => rw [hfe] at h; simp at h
        | none =>
          rw [hfe] at h
          simp only [Prod.mk.injEq, true_and] at h
          simp only [getEntryRO, ← h, findEntry_append_right hfe]
    | cons s' rest' =>
      cases t with
      | metric v0 m0 => simp [addGo] at h
      | registry n dm es =>
        simp only [addGo] at h
        cases hfe : findEntry es s with
        | some child =>
          rw [hfe] at h
          simp only [Prod.mk.injEq] at h
          obtain ⟨h1, h2⟩ := h
          rcases hr : addGo child (s' :: rest') v m with ⟨r1, r2⟩
          rw [hr] at h1 h2
          simp only [getEntryRO, ← h2, findEntry_updateEntry_self hfe]
          exact ih child r2 v m (by rw [hr, show r1 = true from h1])
        | none =>
          rw [hfe] at h
          simp only [Prod.mk.injEq] at h
          obtain ⟨h1, h2⟩ := h
          rcases hr : addGo (.registry (n ++ "." ++ s) dm []) (s' :: rest') v m with ⟨r1, r2⟩
          rw [hr] at h1 h2
          simp only [getEntryRO, ← h2, findEntry_append_right hfe]
          exact ih _ r2 v m (by rw [hr, show r1 = true from h1])

/-- Registration onto a path whose full name is already occupied (by an
Entry of any kind) fails. -/
theorem addGo_occupied_fails : ∀ (p : List String) (t e : Entry) (v : MetricValue)
    (m : Mode), getEntryRO t p = some e → (addGo t p v m).1 = false := by
  intro p
  induction p with
  | nil => intro t e v m _h; simp [addGo]
  | cons s rest ih =>
    intro t e v m h
    cases rest with
    | nil =>
      cases t with
      | metric v0 m0 => simp [addGo]
      | registry n dm es =>
        simp only [getEntryRO] at h
        cases hfe : findEntry es s with
        | none => rw [hfe] at h; simp at h
        | some child => simp [addGo, hfe]
    | cons s' rest' =>
      cases t with
      | metric v0 m0 => simp [addGo]
      | registry n dm es =>
        simp only [getEntryRO] at h
        cases hfe : findEntry es s with
        | none => rw [hfe] at h; simp at h
        | some child =>
          rw [hfe] at h
          simp only [addGo, hfe]
          exact ih child e v m h

/-- A segment that already resolves to a metric entry makes a registration
through it (a nonempty remainder of the dotted name follows the segment)
fail. -/
theorem addGo_collision_false : ∀ (p₁ p₂ : List String) (t : Entry)
    (v : MetricValue) (m : Mode) (v' : MetricValue) (m' : Mode),
    getEntryRO t p₁ = some (.metric v m) → p₂ ≠ [] →
    (addGo t (p₁ ++ p₂) v' m').1 = false := by
  intro p₁
  induction p₁ with
  | nil =>
    intro p₂ t v m v' m' h hne
    simp only [getEntryRO, Option.some.injEq] at h
    subst h
    cases p₂ with
    | nil => exact absurd rfl hne
    | cons a b => simp [addGo]
  | cons s rest ih =>
    intro p₂ t v m v' m' h hne
    cases t with
    | metric v0 m0 => simp [addGo]
    | registry n dm es =>
      simp only [getEntryRO] at h
      cases hfe : findEntry es s with
      | none => rw [hfe] at h; simp at h
      | some child =>
        rw [hfe] at h
        have hne2 : rest ++ p₂ ≠ [] := by
          intro he
          exact hne (List.append_eq_nil.1 he).2
        cases hq : rest ++ p₂ with
        | nil => exact absurd hq hne2
        | cons a b =>
          have hsplit : (s :: rest) ++ p₂ = s :: a :: b := by
            rw [List.cons_append, hq]
          rw [hsplit]
          simp only [addGo, hfe]
          have h2 := ih p₂ child v m v' m' h hne
          rw [hq] at h2
          exact h2

/-- If a path with a nonempty remainder resolves, every such intermediate
point of it names a sub-registry node. -/
theorem getEntryRO_prefix_registry {t x : Entry} {p₁ p₂ : List String}
    (h : getEntryRO t (p₁ ++ p₂) = some x) (hne : p₂ ≠ []) :
    ∃ n dm es, getEntryRO t p₁ = some (.registry n dm es) := by
  rw [getEntryRO_append] at h
  cases hc : getEntryRO t p₁ with
  | none => rw [hc] at h; simp at h
  | some c =>
    rw [hc] at h
    simp only [Option.some_bind] at h
    cases c with
    | metric v m =>
      cases p₂ with
      | nil => exact absurd rfl hne
      | cons a b => simp [getEntryRO] at h
    | registry n dm es => exact ⟨n, dm, es, rfl⟩

/-! ### Lemmas about removal -/

/-- Removing a path that does not resolve is a no-op. -/
theorem removeGo_none_unchanged : ∀ (p : List String) (t : Entry),
    getEntryRO t p = none → removeGo t p = t := by
  intro p
  induction p with
  | nil => intro t _h; simp [removeGo]
  | cons s rest ih =>
    intro t h
    cases rest with
    | nil =>
      cases t with
      | metric v0 m0 => simp [removeGo]
      | registry n dm es =>
        simp only [getEntryRO] at h
        cases hfe : findEntry es s with
        | some child => rw [hfe] at h; simp [getEntryRO] at h
        | none => simp [removeGo, eraseEntry_of_none hfe]
    | cons s' rest' =>
      cases t with
      | metric v0 m0 => simp [removeGo]
      | registry n dm es =>
        simp only [getEntryRO] at h
        cases hfe : findEntry es s with
        | none => simp [removeGo, hfe]
        | some child =>
          rw [hfe] at h
          simp only [removeGo, hfe]
          rw [ih child h, updateEntry_self hfe]

/-- After removing a nonempty path from a well-formed tree, the path no
longer resolves. -/
theorem removeGo_getEntryRO_none : ∀ (p : List String) (t : Entry),
    wfTree t = true → p ≠ [] → getEntryRO (removeGo t p) p = none := by
  intro p
  induction p with
  | nil => intro t _ h; exact absurd rfl h
  | cons s rest ih =>
    intro t hwf _
    cases rest with
    | nil =>
      cases t with
      | metric v0 m0 => simp [removeGo, getEntryRO]
      | registry n dm es =>
        simp [removeGo, getEntryRO, findEntry_eraseEntry_self (s := s) hwf]
    | cons s' rest' =>
      cases t with
      | metric v0 m0 => simp [removeGo, getEntryRO]
      | registry n dm es =>
        simp only [removeGo]
        cases hfe : findEntry es s with
        | none => simp [getEntryRO, hfe]
        | some child =>
          simp only [getEntryRO, findEntry_updateEntry_self hfe]
          exact ih child (wfTree_of_findEntry hwf hfe) (by simp)

/-- The metric-level view of a path: the metric handle (and its mode) stored
at the path, when the path resolves to a metric entry; the segment-level
counterpart of `Entry.get`. -/
def metricAt (t : Entry) (p : List String) : Option (MetricValue × Mode) :=
  match getEntryRO t p with
  | some (.metric v m) => some (v, m)
  | _ => none

theorem metricAt_registry_cons {n : String} {dm : Mode} {es : List (String × Entry)}
    {k : String} {q : List String} :
    metricAt (.registry n dm es) (k :: q)
      = match findEntry es k with
        | none => none
        | some c => metricAt c q := by
  cases hfe : findEntry es k <;> simp [metricAt, getEntryRO, hfe]

/-- Removal along a path changes the metric-level view of no path other than
the removed path and its extensions. -/
theorem removeGo_metricAt_nonpre : ∀ (p : List String) (t : Entry) (q : List String),
    ¬ p <+: q → metricAt (removeGo t p) q = metricAt t q := by
  intro p
  induction p with
  | nil => intro t q h; exact absurd (List.nil_prefix) h
  | cons s rest ih =>
    intro t q h
    cases t with
    | metric v0 m0 =>
      cases rest with
      | nil => simp [removeGo]
      | cons a b => simp [removeGo]
    | registry n dm es =>
      cases rest with
      | nil =>
        simp only [removeGo]
        cases q with
        | nil => simp [metricAt, getEntryRO]
        | cons k q' =>
          have hk : k ≠ s := by
            intro he
            exact h (by simp [he, List.cons_prefix_cons, List.nil_prefix])
          rw [metricAt_registry_cons, metricAt_registry_cons,
            findEntry_eraseEntry_ne hk]
      | cons s' rest' =>
        simp only [removeGo]
        cases hfe : findEntry es s with
        | none => rfl
        | some child =>
          cases q with
          | nil => simp [metricAt, getEntryRO]
          | cons k q' =>
            by_cases hk : k = s
            · subst hk
              have h2 : ¬ (s' :: rest') <+: q' := by
                intro hp
                exact h (List.cons_prefix_cons.2 ⟨rfl, hp⟩)
              rw [metricAt_registry_cons, metricAt_registry_cons,
                findEntry_updateEntry_self hfe, hfe]
              exact ih child q' h2
            · rw [metricAt_registry_cons, metricAt_registry_cons,
                findEntry_updateEntry_ne hk]

/-! ### The fully-qualified name invariant (spec §3, invariant 1) -/

/-- The fully-qualified name a node reached by path `p` from a root named
`root` must carry. -/
def fullNameOf (root : String) (p : List String) : String :=
  p.foldl (fun a s => a ++ "." ++ s) root

/-- Create-missing resolution keeps the root node's constructor, name and
default mode; only the entries map changes. -/
theorem getOrCreateGo_shape (n : String) (dm : Mode) (es : List (String × Entry))
    (p : List String) :
    ∃ es', (getOrCreateGo (.registry n dm es) p).2 = .registry n dm es' := by
  cases p with
  | nil => exact ⟨es, rfl⟩
  | cons s rest =>
    simp only [getOrCreateGo]
    cases hfe : findEntry es s with
    | some child => exact ⟨_, rfl⟩
    | none => exact ⟨_, rfl⟩

/-- Registration keeps the root node's constructor, name and default mode. -/
theorem addGo_shape (n : String) (dm : Mode) (es : List (String × Entry))
    (p : List String) (v : MetricValue) (m : Mode) :
    ∃ es', (addGo (.registry n dm es) p v m).2 = .registry n dm es' := by
  cases p with
  | nil => exact ⟨es, rfl⟩
  | cons s rest =>
    cases rest with
    | nil =>
      simp only [addGo]
      cases hfe : findEntry es s with
      | some child => exact ⟨_, rfl⟩
      | none => exact ⟨_, rfl⟩
    | cons s' rest' =>
      simp only [addGo]
      cases hfe : findEntry es s with
      | some child => exact ⟨_, rfl⟩
      | none => exact ⟨_, rfl⟩

/-- Removal keeps the root node's constructor, name and default mode. -/
theorem removeGo_shape (n : String) (dm : Mode) (es : List (String × Entry))
    (p : List String) :
    ∃ es', removeGo (.registry n dm es) p = .registry n dm es' := by
  cases p with
  | nil => exact ⟨es, rfl⟩
  | cons s rest =>
    cases rest with
    | nil => exact ⟨_, rfl⟩
    | cons s' rest' =>
      simp only [removeGo]
      cases hfe : findEntry es s with
      | some child => exact ⟨_, rfl⟩
      | none => exact ⟨_, rfl⟩

theorem namesOkEntries_cons {p : String} {k : String} {c : Entry}
    {tl : List (String × Entry)} (h : namesOkEntries p ((k, c) :: tl) = true) :
    namesOkTree c = true
      ∧ (∀ n dm es, c = .registry n dm es → n = p ++ "." ++ k)
      ∧ namesOkEntries p tl = true := by
  cases c with
  | metric v m =>
    simp only [namesOkEntries] at h
    exact ⟨rfl, fun n dm es hc => Entry.noConfusion hc, h⟩
  | registry n0 dm0 es0 =>
    simp only [namesOkEntries, Bool.and_eq_true, decide_eq_true_eq] at h
    obtain ⟨⟨h1, h2⟩, h3⟩ := h
    refine ⟨h2, ?_, h3⟩
    intro n dm es hc
    cases hc
    exact h1

theorem namesOkEntries_cons_of {p : String} {k : String} {c : Entry}
    {tl : List (String × Entry)} (hc : namesOkTree c = true)
    (hname : ∀ n dm es, c = .registry n dm es → n = p ++ "." ++ k)
    (htl : namesOkEntries p tl = true) :
    namesOkEntries p ((k, c) :: tl) = true := by
  cases c with
  | metric v m => simpa [namesOkEntries] using htl
  | registry n0 dm0 es0 =>
    simp only [namesOkEntries, Bool.and_eq_true, decide_eq_true_eq]
    exact ⟨⟨hname n0 dm0 es0 rfl, hc⟩, htl⟩

theorem namesOkTree_of_findEntry {p : String} {es : List (String × Entry)}
    {s : String} {c : Entry} (h : namesOkEntries p es = true)
    (hfe : findEntry es s = some c) :
    namesOkTree c = true ∧ ∀ n dm es', c = .registry n dm es' → n = p ++ "." ++ s := by
  induction es with
  | nil => simp [findEntry] at hfe
  | cons hd tl ih =>
    obtain ⟨k, c0⟩ := hd
    obtain ⟨h1, h2, h3⟩ := namesOkEntries_cons h
    by_cases hk : k = s <;> simp [findEntry, hk] at hfe
    · subst hk
      exact hfe ▸ ⟨h1, h2⟩
    · exact ih h3 hfe

theorem namesOkEntries_updateEntry {p : String} {es : List (String × Entry)}
    {s : String} {c' : Entry} (h : namesOkEntries p es = true)
    (hc : namesOkTree c' = true)
    (hname : ∀ n dm es', c' = .registry n dm es' → n = p ++ "." ++ s) :
    namesOkEntries p (updateEntry es s c') = true := by
  induction es with
  | nil => simpa [updateEntry] using h
  | cons hd tl ih =>
    obtain ⟨k, c0⟩ := hd
    obtain ⟨h1, h2, h3⟩ := namesOkEntries_cons h
    by_cases hk : k = s
    · subst hk
      simp only [updateEntry, if_pos rfl]
      exact namesOkEntries_cons_of hc hname h3
    · simp only [updateEntry, if_neg hk]
      exact namesOkEntries_cons_of h1 h2 (ih h3)

theorem namesOkEntries_append {p : String} {es : List (String × Entry)}
    {s : String} {c' : Entry} (h : namesOkEntries p es = true)
    (hc : namesOkTree c' = true)
    (hname : ∀ n dm es', c' = .registry n dm es' → n = p ++ "." ++ s) :
    namesOkEntries p (es ++ [(s, c')]) = true := by
  induction es with
  | nil =>
    simpa using namesOkEntries_cons_of hc hname (by simp [namesOkEntries])
  | cons hd tl ih =>
    obtain ⟨k, c0⟩ := hd
    obtain ⟨h1, h2, h3⟩ := namesOkEntries_cons h
    simpa using namesOkEntries_cons_of h1 h2 (ih h3)

theorem namesOkEntries_eraseEntry {p : String} {es : List (String × Entry)}
    {s : String} (h : namesOkEntries p es = true) :
    namesOkEntries p (eraseEntry es s) = true := by
  induction es with
  | nil => simpa [eraseEntry] using h
  | cons hd tl ih =>
    obtain ⟨k, c0⟩ := hd
    obtain ⟨h1, h2, h3⟩ := namesOkEntries_cons h
    by_cases hk : k = s
    · simpa [eraseEntry, hk] using h3
    · simp only [eraseEntry, if_neg hk]
      exact namesOkEntries_cons_of h1 h2 (ih h3)

/-- Create-missing resolution preserves the name invariant: every node it
creates is named with its parent's name plus its local segment. -/
theorem namesOkTree_getOrCreateGo : ∀ (p : List String) (t : Entry),
    namesOkTree t = true → namesOkTree (getOrCreateGo t p).2 = true := by
  intro p
  induction p with
  | nil => intro t h; cases t <;> simpa [getOrCreateGo] using h
  | cons s rest ih =>
    intro t h
    cases t with
    | metric v m => simpa [getOrCreateGo] using h
    | registry n dm es =>
      simp only [getOrCreateGo]
      cases hfe : findEntry es s with
      | some child =>
        obtain ⟨hc1, hc2⟩ := namesOkTree_of_findEntry h hfe
        simp only [namesOkTree]
        apply namesOkEntries_updateEntry h (ih child hc1)
        intro n' dm' es' hc'
        cases child with
        | metric v2 m2 => simp [getOrCreateGo] at hc'
        | registry n2 dm2 es2 =>
          obtain ⟨es3, hes3⟩ := getOrCreateGo_shape n2 dm2 es2 rest
          rw [hes3] at hc'
          obtain ⟨he1, _he2, _he3⟩ := Entry.registry.injEq .. ▸ hc'
          exact he1 ▸ hc2 n2 dm2 es2 rfl
      | none =>
        simp only [namesOkTree]
        obtain ⟨es3, hes3⟩ := getOrCreateGo_shape (n ++ "." ++ s) dm [] rest
        apply namesOkEntries_append h
          (ih _ (by simp [namesOkTree, namesOkEntries]))
        intro n' dm' es' hc'
        rw [hes3] at hc'
        obtain ⟨he1, _he2, _he3⟩ := Entry.registry.injEq .. ▸ hc'
        exact he1 ▸ rfl

/-- Registration preserves the name invariant. -/
theorem namesOkTree_addGo : ∀ (p : List String) (t : Entry) (v : MetricValue)
    (m : Mode), namesOkTree t = true → namesOkTree (addGo t p v m).2 = true := by
  intro p
  induction p with
  | nil => intro t v m h; cases t <;> simpa [addGo] using h
  | cons s rest ih =>
    intro t v m h
    cases t with
    | metric v0 m0 => simpa [addGo] using h
    | registry n dm es =>
      cases rest with
      | nil =>
        simp only [addGo]
        cases hfe : findEntry es s with
        | some child => simpa using h
        | none =>
          simp only [namesOkTree]
          exact namesOkEntries_append h rfl (fun n' dm' es' hc' => Entry.noConfusion hc')
      | cons s' rest' =>
        simp only [addGo]
        cases hfe : findEntry es s with
        | some child =>
          obtain ⟨hc1, hc2⟩ := namesOkTree_of_findEntry h hfe
          simp only [namesOkTree]
          apply namesOkEntries_updateEntry h (ih child v m hc1)
          intro n' dm' es' hc'
          cases child with
          | metric v2 m2 => simp [addGo] at hc'
          | registry n2 dm2 es2 =>
            obtain ⟨es3, hes3⟩ := addGo_shape n2 dm2 es2 (s' :: rest') v m
            rw [hes3] at hc'
            obtain ⟨he1, _he2, _he3⟩ := Entry.registry.injEq .. ▸ hc'
            exact he1 ▸ hc2 n2 dm2 es2 rfl
        | none =>
          simp only [namesOkTree]
          obtain ⟨es3, hes3⟩ := addGo_shape (n ++ "." ++ s) dm [] (s' :: rest') v m
          apply namesOkEntries_append h
            (ih _ v m (by simp [namesOkTree, namesOkEntries]))
          intro n' dm' es' hc'
          rw [hes3] at hc'
          obtain ⟨he1, _he2, _he3⟩ := Entry.registry.injEq .. ▸ hc'
          exact he1 ▸ rfl

/-- Removal preserves the name invariant. -/
theorem namesOkTree_removeGo : ∀ (p : List String) (t : Entry),
    namesOkTree t = true → namesOkTree (removeGo t p) = true := by
  intro p
  induction p with
  | nil => intro t h; simpa [removeGo] using h
  | cons s rest ih =>
    intro t h
    cases t with
    | metric v0 m0 => cases rest <;> simpa [removeGo] using h
    | registry n dm es =>
      cases rest with
      | nil =>
        simp only [removeGo, namesOkTree]
        exact namesOkEntries_eraseEntry h
      | cons s' rest' =>
        simp only [removeGo]
        cases hfe : findEntry es s with
        | none => simpa using h
        | some child =>
          obtain ⟨hc1, hc2⟩ := namesOkTree_of_findEntry h hfe
          simp only [namesOkTree]
          apply namesOkEntries_updateEntry h (ih child hc1)
          intro n' dm' es' hc'
          cases child with
          | metric v2 m2 => simp [removeGo] at hc'
          | registry n2 dm2 es2 =>
            obtain ⟨es3, hes3⟩ := removeGo_shape n2 dm2 es2 (s' :: rest')
            rw [hes3] at hc'
            obtain ⟨he1, _he2, _he3⟩ := Entry.registry.injEq .. ▸ hc'
            exact he1 ▸ hc2 n2 dm2 es2 rfl

/-- Clearing preserves the name invariant. -/
theorem namesOkTree_clear : ∀ (t : Entry),
    namesOkTree t = true → namesOkTree t.clear = true := by
  intro t h
  cases t with
  | metric v m => simpa [Entry.clear] using h
  | registry n dm es => simp [Entry.clear, namesOkTree, namesOkEntries]

/-- Under the name invariant, the fully-qualified name of every reachable
registry node is determined by the root's name and the node's path: it is
the root name followed by the path segments, dot-joined. -/
theorem getEntryRO_registry_name : ∀ (p : List String) (nr : String) (dm : Mode)
    (es : List (String × Entry)) (nm : String) (dm' : Mode)
    (es' : List (String × Entry)),
    namesOkTree (.registry nr dm es) = true →
    getEntryRO (.registry nr dm es) p = some (.registry nm dm' es') →
    nm = fullNameOf nr p := by
  intro p
  induction p with
  | nil =>
    intro nr dm es nm dm' es' _h hro
    simp [getEntryRO] at hro
    exact hro.1.symm
  | cons s rest ih =>
    intro nr dm es nm dm' es' h hro
    simp only [getEntryRO] at hro
    cases hfe : findEntry es s with
    | none => rw [hfe] at hro; simp at hro
    | some child =>
      rw [hfe] at hro
      obtain ⟨hc1, hc2⟩ := namesOkTree_of_findEntry h hfe
      cases child with
      | metric v2 m2 => cases rest <;> simp [getEntryRO] at hro
      | registry n2 dm2 es2 =>
        have hn2 : n2 = nr ++ "." ++ s := hc2 n2 dm2 es2 rfl
        have : nm = fullNameOf n2 rest := ih n2 dm2 es2 nm dm' es' hc1 hro
        rw [this, hn2]
        rfl

/-! ### Lemmas about iteration (`Do`) -/

theorem modeMatches_full (m : Mode) : modeMatches .full m = true := by
  cases m <;> rfl

/-- The fully-qualified name of a metric visited under name prefix `pre`
along the segment list `segs`. -/
def joinAll (pre : String) (segs : List String) : String := segs.foldl joinName pre

theorem joinAll_cons (pre k : String) (segs : List String) :
    joinAll pre (k :: segs) = joinAll (joinName pre k) segs := rfl

theorem mem_doVisitEntries_iff {f : Mode} {pre : String}
    {es : List (String × Entry)} {x : String × MetricValue} :
    x ∈ doVisitEntries f pre es
      ↔ ∃ k c, (k, c) ∈ es ∧ x ∈ doVisit f (joinName pre k) c := by
  induction es with
  | nil => simp [doVisitEntries]
  | cons hd tl ih =>
    obtain ⟨k0, c0⟩ := hd
    simp only [doVisitEntries, List.mem_append, ih]
    constructor
    · intro h
      rcases h with h | ⟨k, c, h1, h2⟩
      · exact ⟨k0, c0, by simp, h⟩
      · exact ⟨k, c, by simp [h1], h2⟩
    · intro ⟨k, c, h1, h2⟩
      rcases List.mem_cons.1 h1 with h3 | h3
      · obtain ⟨h4, h5⟩ := Prod.mk.injEq .. ▸ h3
        subst h4; subst h5
        exact Or.inl h2
      · exact Or.inr ⟨k, c, h3, h2⟩

theorem wfTree_of_mem {es : List (String × Entry)} {k : String} {c : Entry}
    (hwf : wfEntries es = true) (h : (k, c) ∈ es) : wfTree c = true := by
  induction es with
  | nil => simp at h
  | cons hd tl ih =>
    obtain ⟨k0, c0⟩ := hd
    obtain ⟨_h1, h2, h3⟩ := wfEntries_cons hwf
    rcases List.mem_cons.1 h with h4 | h4
    · obtain ⟨_, h5⟩ := Prod.mk.injEq .. ▸ h4.symm
      exact h5 ▸ h2
    · exact ih h3 h4

theorem cleanEntries_cons {k : String} {c : Entry} {tl : List (String × Entry)}
    (h : cleanEntries ((k, c) :: tl) = true) :
    k ≠ "" ∧ k.data.contains '.' = false ∧ cleanTree c = true ∧ cleanEntries tl = true := by
  simp only [cleanEntries, Bool.and_eq_true, Bool.not_eq_true',
    decide_eq_false_iff_not] at h
  exact ⟨h.1.1.1, h.1.1.2, h.1.2, h.2⟩

theorem cleanTree_of_mem {es : List (String × Entry)} {k : String} {c : Entry}
    (hcl : cleanEntries es = true) (h : (k, c) ∈ es) :
    k ≠ "" ∧ k.data.contains '.' = false ∧ cleanTree c = true := by
  induction es with
  | nil => simp at h
  | cons hd tl ih =>
    obtain ⟨k0, c0⟩ := hd
    obtain ⟨h1, h2, h3, h4⟩ := cleanEntries_cons hcl
    rcases List.mem_cons.1 h with h5 | h5
    · obtain ⟨h6, h7⟩ := Prod.mk.injEq .. ▸ h5.symm
      exact ⟨h6 ▸ h1, h6 ▸ h2, h7 ▸ h3⟩
    · exact ih h4 h5

/-- Correspondence between iteration and lookup: with the "full" filter, the
(name, value) pairs passed to the visitor are exactly the metric entries the
read-only path resolver can reach, under their joined dotted names. -/
theorem mem_doVisit_full_iff : ∀ (t : Entry), wfTree t = true →
    ∀ (pre name : String) (v : MetricValue),
    ((name, v) ∈ doVisit .full pre t
      ↔ ∃ segs m, getEntryRO t segs = some (.metric v m) ∧ name = joinAll pre segs) := by
  intro t
  induction t using Entry.strongInd with
  | hm v0 m0 =>
    intro _hwf pre name v
    simp only [doVisit, modeMatches_full, if_pos]
    constructor
    · intro h
      simp only [List.mem_singleton, Prod.mk.injEq] at h
      exact ⟨[], m0, by simp [getEntryRO, h.2], h.1⟩
    · intro ⟨segs, m, h1, h2⟩
      cases segs with
      | nil =>
        simp only [getEntryRO, Option.some.injEq, Entry.metric.injEq] at h1
        simp [h2, joinAll, h1.1]
      | cons a b => simp [getEntryRO] at h1
  | hr n dm es ih =>
    intro hwf pre name v
    simp only [doVisit, mem_doVisitEntries_iff]
    constructor
    · intro ⟨k, c, h1, h2⟩
      have hwfc : wfTree c = true := wfTree_of_mem hwf h1
      obtain ⟨segs, m, h3, h4⟩ := (ih k c h1 hwfc (joinName pre k) name v).1 h2
      refine ⟨k :: segs, m, ?_, by rw [joinAll_cons]; exact h4⟩
      simp only [getEntryRO, mem_findEntry_of_wf hwf h1]
      exact h3
    · intro ⟨segs, m, h1, h2⟩
      cases segs with
      | nil => simp [getEntryRO] at h1
      | cons k segs' =>
        simp only [getEntryRO] at h1
        cases hfe : findEntry es k with
        | none => rw [hfe] at h1; simp at h1
        | some c =>
          rw [hfe] at h1
          have hmem := findEntry_mem hfe
          have hwfc : wfTree c = true := wfTree_of_mem hwf hmem
          refine ⟨k, c, hmem, ?_⟩
          exact (ih k c hmem hwfc (joinName pre k) name v).2
            ⟨segs', m, h1, by rw [joinAll_cons] at h2; exact h2⟩

/-- The dot-prefixed character form of a name prefix: empty for the root
prefix, `pre ++ "."` otherwise. -/
def preChars (pre : String) : List Char := if pre = "" then [] else pre.data ++ ['.']

theorem joinName_data (pre k : String) :
    (joinName pre k).data = preChars pre ++ k.data := by
  by_cases h : pre = "" <;> simp [joinName, preChars, h]

theorem joinName_ne_empty {pre k : String} (hk : k ≠ "") : joinName pre k ≠ "" := by
  intro he
  have : (joinName pre k).data = [] := by rw [he]
  rw [joinName_data] at this
  rcases List.append_eq_nil.1 this with ⟨_h1, h2⟩
  exact hk (String.ext h2)

/-- Every name visited below a nonempty prefix either is the prefix itself
(the node is a metric) or extends it after a dot separator. -/
theorem doVisit_name_shape : ∀ (t : Entry), cleanTree t = true →
    ∀ (f : Mode) (pre name : String) (v : MetricValue), pre ≠ "" →
    (name, v) ∈ doVisit f pre t →
    name = pre ∨ ∃ tail, name.data = pre.data ++ '.' :: tail := by
  intro t
  induction t using Entry.strongInd with
  | hm v0 m0 =>
    intro _hcl f pre name v _hpre h
    simp only [doVisit] at h
    cases hmm : modeMatches f m0 with
    | false => rw [hmm] at h; simp at h
    | true =>
      rw [hmm] at h
      simp at h
      exact Or.inl h.1
  | hr n dm es ih =>
    intro hcl f pre name v hpre h
    simp only [doVisit, mem_doVisitEntries_iff] at h
    obtain ⟨k, c, h1, h2⟩ := h
    obtain ⟨hk1, _hk2, hk3⟩ := cleanTree_of_mem hcl h1
    have hjoin : joinName pre k = pre ++ "." ++ k := by simp [joinName, hpre]
    rcases ih k c h1 hk3 f (joinName pre k) name v (joinName_ne_empty hk1) h2 with
      h3 | ⟨tail, h3⟩
    · refine Or.inr ⟨k.data, ?_⟩
      rw [h3, hjoin]
      simp
    · refine Or.inr ⟨k.data ++ '.' :: tail, ?_⟩
      rw [h3, hjoin]
      simp

/-- Two dot-free segments followed by either nothing or a dot-separated
remainder can only concatenate to the same character string if the segments
coincide. -/
theorem append_seg_inj {a b x y : List Char}
    (ha : a.contains '.' = false) (hb : b.contains '.' = false)
    (hx : x = [] ∨ ∃ t, x = '.' :: t) (hy : y = [] ∨ ∃ t, y = '.' :: t)
    (h : a ++ x = b ++ y) : a = b := by
  have hmem : ∀ (l : List Char), l.contains '.' = false → ∀ c ∈ l, (c != '.') = true := by
    intro l hl c hc
    simp only [bne_iff_ne, ne_eq]
    intro he
    subst he
    simp [List.contains] at hl
    exact hl hc
  have hta : (a ++ x).takeWhile (· != '.') = a := by
    rw [List.takeWhile_append_of_pos (hmem a ha)]
    rcases hx with h1 | ⟨t, h1⟩ <;> subst h1 <;> simp [List.takeWhile]
  have htb : (b ++ y).takeWhile (· != '.') = b := by
    rw [List.takeWhile_append_of_pos (hmem b hb)]
    rcases hy with h1 | ⟨t, h1⟩ <;> subst h1 <;> simp [List.takeWhile]
  rw [← hta, ← htb, h]

/-- Character-level decomposition of a name visited inside the entry stored
under key `k`: the name is the prefix, then `k`, then nothing or a
dot-separated remainder. -/
theorem doVisit_name_decomp {c : Entry} {f : Mode} {pre k nm : String}
    {v : MetricValue} (hk : k ≠ "") (hcl : cleanTree c = true)
    (h : (nm, v) ∈ doVisit f (joinName pre k) c) :
    ∃ x, nm.data = preChars pre ++ (k.data ++ x) ∧ (x = [] ∨ ∃ t, x = '.' :: t) := by
  rcases doVisit_name_shape c hcl f (joinName pre k) nm v (joinName_ne_empty hk) h with
    h1 | ⟨tail, h1⟩
  · exact ⟨[], by rw [h1, joinName_data]; simp, Or.inl rfl⟩
  · exact ⟨'.' :: tail, by rw [h1, joinName_data]; simp, Or.inr ⟨tail, rfl⟩⟩

/-- The visitor sees pairwise distinct names across one node's entries map,
given per-entry distinctness. -/
theorem nodup_doVisitEntries_names (f : Mode) :
    ∀ (es : List (String × Entry)) (pre : String),
    wfEntries es = true → cleanEntries es = true →
    (∀ k c, (k, c) ∈ es → ∀ pre', ((doVisit f pre' c).map Prod.fst).Nodup) →
    ((doVisitEntries f pre es).map Prod.fst).Nodup := by
  intro es
  induction es with
  | nil => intro pre _ _ _; simp [doVisitEntries]
  | cons hd tl ihl =>
    obtain ⟨k, c⟩ := hd
    intro pre hwf hcl hmem
    obtain ⟨hw1, hw2, hw3⟩ := wfEntries_cons hwf
    obtain ⟨hc1, hc2, hc3, hc4⟩ := cleanEntries_cons hcl
    simp only [doVisitEntries, List.map_append]
    apply List.Nodup.append
    · exact hmem k c (List.mem_cons_self _ _) (joinName pre k)
    · exact ihl pre hw3 hc4 (fun k' c' h' => hmem k' c' (List.mem_cons_of_mem _ h'))
    · intro nm h1 h2
      obtain ⟨⟨nm1, v1⟩, h3, h4⟩ := List.mem_map.1 h1
      obtain ⟨⟨nm2, v2⟩, h5, h6⟩ := List.mem_map.1 h2
      simp only at h4 h6
      obtain ⟨k', c', h7, h8⟩ := mem_doVisitEntries_iff.1 h5
      obtain ⟨hk'1, hk'2, hk'3⟩ := cleanTree_of_mem hc4 h7
      obtain ⟨x, hx1, hx2⟩ := doVisit_name_decomp hc1 hc3 h3
      obtain ⟨y, hy1, hy2⟩ := doVisit_name_decomp hk'1 hk'3 h8
      have hkk : k' ≠ k := findEntry_eq_none_iff.1 hw1 k' c' h7
      rw [h4] at hx1
      rw [h6] at hy1
      rw [hx1] at hy1
      exact hkk (String.ext
        (append_seg_inj hc2 hk'2 hx2 hy2 (List.append_cancel_left hy1)).symm)

/-- With any filter, the visitor is invoked at most once per fully-qualified
name: the visited names are pairwise distinct (well-formed tree, sane keys). -/
theorem nodup_doVisit_names : ∀ (t : Entry), wfTree t = true →
    cleanTree t = true → ∀ (f : Mode) (pre : String),
    ((doVisit f pre t).map Prod.fst).Nodup := by
  intro t
  induction t using Entry.strongInd with
  | hm v m =>
    intro _ _ f pre
    simp only [doVisit]
    cases modeMatches f m <;> simp
  | hr n dm es ih =>
    intro hwf hcl f pre
    simp only [doVisit]
    exact nodup_doVisitEntries_names f es pre hwf hcl
      (fun k c h' => ih k c h' (wfTree_of_mem hwf h') (cleanTree_of_mem hcl h').2.2 f)

/-- A successful create-missing call always hands back a registry node,
never a metric. -/
theorem getOrCreateGo_isRegistry : ∀ (p : List String) (t t' c : Entry),
    getOrCreateGo t p = (some c, t') → ∃ n dm es, c = .registry n dm es := by
  intro p
  induction p with
  | nil =>
    intro t t' c h
    cases t <;> simp [getOrCreateGo] at h
    exact ⟨_, _, _, h.1.symm⟩
  | cons s rest ih =>
    intro t t' c h
    cases t with
    | metric v m => simp [getOrCreateGo] at h
    | registry n dm es =>
      simp only [getOrCreateGo] at h
      cases hfe : findEntry es s with
      | some child =>
        rw [hfe] at h
        simp only [Prod.mk.injEq] at h
        rcases hr : getOrCreateGo child rest with ⟨r1, r2⟩
        rw [hr] at h
        exact ih child r2 c (by rw [hr, Prod.mk.injEq]; exact ⟨h.1, rfl⟩)
      | none =>
        rw [hfe] at h
        simp only [Prod.mk.injEq] at h
        rcases hr : getOrCreateGo (.registry (n ++ "." ++ s) dm []) rest with ⟨r1, r2⟩
        rw [hr] at h
        exact ih _ r2 c (by rw [hr, Prod.mk.injEq]; exact ⟨h.1, rfl⟩)

/-- Registry names carried by a node, if it is one (used to observe the name
of nodes returned by the API). -/
def Entry.regName : Entry → Option String
  | .metric _ _ => none
  | .registry n _ _ => some n

theorem splitName_ne_nil (name : String) : splitName name ≠ [] := by
  intro h
  simp only [splitName] at h
  exact List.splitOnP_ne_nil _ _ (List.map_eq_nil_iff.1 h)

end Monitoring

namespace Tlscommon

/-!
Embedding of `src/transport/tlscommon/config.go`. The leaf types declared in
other files of the package (`TLSVerificationMode`, `TLSVersion`,
`CipherSuite`, `tlsCurveType`, `TLSRenegotiationSupport`,
`CertificateConfig`) are irrelevant to the embedded control flow and are
kept as opaque numeric handles; the two collaborators called by
`LoadTLSConfig` (`LoadCertificate`, `LoadCertificateAuthorities`, also
defined in other files) are abstracted as function parameters.
-/

/-- Opaque stand-in for the inline `CertificateConfig` field. -/
structure CertificateConfig where
  handle : Nat
deriving DecidableEq, Repr

/-- Embedded from `config.go`: the user-configurable `Config` struct. The
`Enabled *bool` pointer field is an `Option Bool` (`none` = unset). -/
structure Config where
  enabled : Option Bool
  verificationMode : Nat
  versions : List Nat
  cipherSuites : List Nat
  cas : List String
  certificate : CertificateConfig
  curveTypes : List Nat
  renegotiation : Nat
  caSha256 : List String
  caTrustedFingerprint : String
deriving DecidableEq, Repr

/-- Embedded from `config.go`: the `TLSConfig` value built on the success
path of `LoadTLSConfig`. -/
structure TLSConfig where
  versions : List Nat
  verification : Nat
  certificates : List Nat
  rootCAs : Option Nat
  cipherSuites : List Nat
  curvePreferences : List Nat
  renegotiation : Nat
  caSha256 : List String
  caTrustedFingerprint : String
deriving DecidableEq, Repr

/-- Embedded from `config.go`:
`func (c *Config) IsEnabled() bool { return c != nil && (c.Enabled == nil || *c.Enabled) }`.
The nil-able receiver pointer is an `Option Config`. -/
def isEnabled : Option Config → Bool
  | none => false
  | some c =>
    match c.enabled with
    | none => true
    | some b => b

/-- Embedded from `config.go` `LoadTLSConfig`. `loadCertificate` stands for
`LoadCertificate` (an optional certificate handle or an error) and `loadCAs`
for `LoadCertificateAuthorities` (an optional CA-pool handle and a list of
possible errors); the `fail` list collects the non-nil errors exactly as
`logFail` does, and the returned error component is the joined `fail` list,
empty exactly when `errors.Join(fail...)` would be nil. -/
def loadTLSConfig
    (loadCertificate : CertificateConfig → Option Nat × Option String)
    (loadCAs : List String → Option Nat × List (Option String))
    (config : Option Config) : Option TLSConfig × List String :=
  if isEnabled config = false then (none, [])
  else
    match config with
    | none => (none, []) -- unreachable: `isEnabled none = false`
    | some c =>
      let curves := c.curveTypes
      let certRes := loadCertificate c.certificate
      let casRes := loadCAs c.cas
      let fail := (certRes.2 :: casRes.2).filterMap id
      if fail.length ≠ 0 then (none, fail)
      else
        let certs := match certRes.1 with
          | none => []
          | some h => [h]
        (some ⟨c.versions, c.verificationMode, certs, casRes.1, c.cipherSuites,
          curves, c.renegotiation, c.caSha256, c.caTrustedFingerprint⟩, [])

end Tlscommon

namespace Monitoring

/-! ### Concrete scenario trees from the registry tests -/

/-- The collision scenario of `TestGetOrCreateRegistry`: a root named
"root", sub-registries `a`, `a.b`, `a.b.c` created on demand, and a metric
named `scalar` added under `c`. -/
def c2Tree : Entry :=
  (((mkRoot "root" .full).getOrCreateRegistry "a.b.c").2.add "a.b.c.scalar"
    (.intVal 0) .full).2

/-- Root of the `TestGetOrCreateRegistry` scenario. -/
def c3Root : Entry := mkRoot "root" .full

/-- The tree after `root.GetOrCreateRegistry("a.b.c")`. -/
def c3T1 : Entry := (c3Root.getOrCreateRegistry "a.b.c").2

/-- The node returned by `root.GetOrCreateRegistry("a.b.c")` on the empty
root: a freshly created empty registry whose fully-qualified name is
`root.a.b.c`. -/
def c3CNode : Entry := .registry "root.a.b.c" .full []

/-- The node returned by `c.GetOrCreateRegistry("z.y")`. -/
def c3YNode : Entry := .registry "root.a.b.c.z.y" .full []

/-! ### Claim theorems -/

/-- C8: on an empty registry, `Get` and `GetRegistry` return absent for
every dotted name, single-segment or multi-segment; read-only resolution
never creates nodes (in this embedding `Get`/`GetRegistry` are pure
functions that return no updated tree, so no mutation is possible). -/
theorem c8_empty_registry_lookups_absent (rn name : String) (dm : Mode) :
    (mkRoot rn dm).get name = none ∧ (mkRoot rn dm).getRegistry name = none := by
  have key : getEntryRO (mkRoot rn dm) (splitName name) = none := by
    cases h : splitName name with
    | nil => exact absurd h (splitName_ne_nil name)
    | cons s rest => simp [mkRoot, getEntryRO, findEntry]
  exact ⟨by simp [Entry.get, key], by simp [Entry.getRegistry, key]⟩

/-- C2: when create-missing resolution (`GetOrCreateRegistry`, or metric
registration through intermediate segments) hits a segment that already
resolves to a metric entry, the whole call fails with an absent/failure
value — for every tree and every path: a prefix resolving to a metric makes
`GetOrCreateRegistry` return absent whatever follows, and makes a
registration with a nonempty remainder fail — and every failing call leaves
the tree exactly as it was, so in particular nothing is created at or
beyond the colliding segment (a stronger form of the claim's "ancestors
created earlier remain": collisions are only possible inside the
pre-existing prefix, before any fresh node is created, so a failing call
creates nothing at all); concretely, with a metric `scalar` under `c`,
`GetOrCreateRegistry("a.b.c.scalar.w.x")` returns absent, creates neither
`w` nor `x` and leaves the tree unchanged. -/
theorem c2_collision_fails_without_mutation :
    (∀ (t : Entry) (name : String),
      (t.getOrCreateRegistry name).1 = none → (t.getOrCreateRegistry name).2 = t)
    ∧ (∀ (t : Entry) (name : String) (v : MetricValue) (m : Mode),
      (t.add name v m).1 = false → (t.add name v m).2 = t)
    ∧ (∀ (t : Entry) (p₁ p₂ : List String) (v : MetricValue) (m : Mode),
      getEntryRO t p₁ = some (.metric v m) →
      (getOrCreateGo t (p₁ ++ p₂)).1 = none)
    ∧ (∀ (t : Entry) (p₁ p₂ : List String) (v : MetricValue) (m : Mode)
        (v' : MetricValue) (m' : Mode),
      getEntryRO t p₁ = some (.metric v m) → p₂ ≠ [] →
      (addGo t (p₁ ++ p₂) v' m').1 = false)
    ∧ (c2Tree.getOrCreateRegistry "a.b.c.scalar.w.x").1 = none
    ∧ (c2Tree.getOrCreateRegistry "a.b.c.scalar.w.x").2 = c2Tree
    ∧ c2Tree.getRegistry "a.b.c.scalar.w" = none
    ∧ c2Tree.getRegistry "a.b.c.scalar.w.x" = none
    ∧ c2Tree.get "a.b.c.scalar" = some (.intVal 0) := by
  refine ⟨?_, ?_, ?_, ?_, rfl, rfl, rfl, rfl, rfl⟩
  · intro t name h
    exact getOrCreateGo_none_unchanged (splitName name) t h
  · intro t name v m h
    exact addGo_false_unchanged (splitName name) t v m h
  · intro t p₁ p₂ v m h
    exact getOrCreateGo_collision_none t p₁ p₂ v m h
  · intro t p₁ p₂ v m v' m' h hne
    exact addGo_collision_false p₁ p₂ t v m v' m' h hne

/-- C2 witness: in the collision scenario the metric at `a.b.c.scalar`
makes `GetOrCreateRegistry` of any extension fail, and the failing
`GetOrCreateRegistry("a.b.c.scalar.w.x")` call leaves the tree unchanged. -/
theorem c2_collision_fails_without_mutation_witness :
    (getOrCreateGo c2Tree (["a", "b", "c", "scalar"] ++ ["w", "x"])).1 = none
      ∧ (addGo c2Tree (["a", "b", "c", "scalar"] ++ ["w"]) (.intVal 9) .full).1
          = false
      ∧ (c2Tree.getOrCreateRegistry "a.b.c.scalar.w.x").2 = c2Tree :=
  ⟨c2_collision_fails_without_mutation.2.2.1 c2Tree ["a", "b", "c", "scalar"]
      ["w", "x"] (.intVal 0) .full rfl,
   c2_collision_fails_without_mutation.2.2.2.1 c2Tree ["a", "b", "c", "scalar"]
      ["w"] (.intVal 0) .full (.intVal 9) .full rfl (by simp),
   c2_collision_fails_without_mutation.1 c2Tree "a.b.c.scalar.w.x" rfl⟩

/-- C3: `GetOrCreateRegistry` is idempotent (repeating a successful call on
the updated tree returns the identical node and changes nothing) and
path-equivalence respecting (a concatenated path resolves to the same node
as resolving the two parts in sequence from the intermediate node), and
`GetRegistry` on the same path afterwards returns that same node; concretely
`root.GetOrCreateRegistry("a.b.c.z.y")` and `c.GetOrCreateRegistry("z.y")`
for `c = root.GetOrCreateRegistry("a.b.c")` return the identical node, which
`GetRegistry("a.b.c.z.y")` also returns afterwards. -/
theorem c3_getOrCreateRegistry_idempotent_path_equivalent :
    (∀ (p : List String) (t t' c : Entry),
      getOrCreateGo t p = (some c, t') → getOrCreateGo t' p = (some c, t'))
    ∧ (∀ (p q : List String) (t : Entry),
      (getOrCreateGo t (p ++ q)).1
        = Option.bind (getOrCreateGo t p).1 (fun c => (getOrCreateGo c q).1))
    ∧ (∀ (t t' c : Entry) (name : String),
      t.getOrCreateRegistry name = (some c, t') → t'.getRegistry name = some c)
    ∧ (c3Root.getOrCreateRegistry "a.b.c").1 = some c3CNode
    ∧ (c3CNode.getOrCreateRegistry "z.y").1 = some c3YNode
    ∧ ((c3CNode.getOrCreateRegistry "z.y").2.getOrCreateRegistry "z.y")
        = (some c3YNode, (c3CNode.getOrCreateRegistry "z.y").2)
    ∧ (c3T1.getOrCreateRegistry "a.b.c.z.y").1 = some c3YNode
    ∧ ((c3T1.getOrCreateRegistry "a.b.c.z.y").2.getRegistry "a.b.c.z.y")
        = some c3YNode := by
  refine ⟨?_, ?_, ?_, rfl, rfl, rfl, rfl, rfl⟩
  · intro p t t' c h
    exact getOrCreateGo_idem p t t' c h
  · intro p q t
    exact getOrCreateGo_append_fst p t q
  · intro t t' c name h
    obtain ⟨n, dm, es, hc⟩ :=
      getOrCreateGo_isRegistry (splitName name) t t' c h
    have h2 : getEntryRO t' (splitName name) = some c :=
      getOrCreateGo_getEntryRO (splitName name) t t' c h
    subst hc
    simp [Entry.getRegistry, h2]

/-- C3 witness: repeating `GetOrCreateRegistry("z.y")` on the updated `c`
node returns the identical node and leaves the tree unchanged. -/
theorem c3_getOrCreateRegistry_idempotent_path_equivalent_witness :
    getOrCreateGo (c3CNode.getOrCreateRegistry "z.y").2 (splitName "z.y")
      = (some c3YNode, (c3CNode.getOrCreateRegistry "z.y").2) :=
  c3_getOrCreateRegistry_idempotent_path_equivalent.1 (splitName "z.y")
    c3CNode (c3CNode.getOrCreateRegistry "z.y").2 c3YNode rfl

/-- C4: the steady-state API is total — every operation returns an ordinary
failure value instead of panicking: registration either succeeds or reports
failure leaving the tree unchanged (in particular registering over any
occupied name fails), `GetOrCreateRegistry` either returns a node or reports
absent leaving the tree unchanged, and removal of an unresolvable path is an
ordinary no-op. All operations of the embedding are total functions, the
model of an API that never throws. -/
theorem c4_failures_communicated_as_values :
    (∀ (t : Entry) (name : String) (v : MetricValue) (m : Mode),
      (t.add name v m).1 = true
        ∨ ((t.add name v m).1 = false ∧ (t.add name v m).2 = t))
    ∧ (∀ (t : Entry) (name : String),
      ((t.getOrCreateRegistry name).1).isSome = true
        ∨ ((t.getOrCreateRegistry name).1 = none
            ∧ (t.getOrCreateRegistry name).2 = t))
    ∧ (∀ (t : Entry) (name : String) (v : MetricValue) (m : Mode) (e : Entry),
      getEntryRO t (splitName name) = some e → (t.add name v m).1 = false)
    ∧ (∀ (t : Entry) (name : String),
      getEntryRO t (splitName name) = none → t.remove name = t) := by
  refine ⟨?_, ?_, ?_, ?_⟩
  · intro t name v m
    cases h : (t.add name v m).1 with
    | true => exact Or.inl rfl
    | false => exact Or.inr ⟨rfl, addGo_false_unchanged (splitName name) t v m h⟩
  · intro t name
    cases h : (t.getOrCreateRegistry name).1 with
    | some c => exact Or.inl rfl
    | none =>
      exact Or.inr ⟨rfl, getOrCreateGo_none_unchanged (splitName name) t h⟩
  · intro t name v m e h
    exact addGo_occupied_fails (splitName name) t e v m h
  · intro t name h
    exact removeGo_none_unchanged (splitName name) t h

/-- C4 witness: re-registering the already occupied name `a.b.c.scalar`
fails with an ordinary failure value. -/
theorem c4_failures_communicated_as_values_witness :
    (c2Tree.add "a.b.c.scalar" (.intVal 7) .full).1 = false :=
  c4_failures_communicated_as_values.2.2.1 c2Tree "a.b.c.scalar" (.intVal 7)
    .full (.metric (.intVal 0) .full) rfl

/-- The `TestRegistryGet` scenario: an int metric `v` at the root, a string
metric `sub.registry1.v` and a float metric `sub.registry2.v`. -/
def c1Tree : Entry :=
  ((((mkRoot "" .full).add "v" (.intVal 1) .reported).2.add
      "sub.registry1.v" (.strVal "x") .reported).2.add
    "sub.registry2.v" (.floatTok 0) .reported).2

/-- C1: a successfully registered metric is afterwards reachable under the
same dotted name via `Get` (also, equivalently, through the chain of
ancestors, since read-only resolution composes over path concatenation),
and every intermediate point of its path names a sub-registry node; in the
concrete scenario the three registered handles are returned exactly, and
`Get("v")` on the node returned by `GetRegistry("sub.registry1")` agrees
with `Get("sub.registry1.v")` on the root. -/
theorem c1_registered_metric_reachable :
    (∀ (t t' : Entry) (name : String) (v : MetricValue) (m : Mode),
      t.add name v m = (true, t') → t'.get name = some v)
    ∧ (∀ (t : Entry) (p q : List String),
      getEntryRO t (p ++ q) = (getEntryRO t p).bind (fun c => getEntryRO c q))
    ∧ (∀ (t t' : Entry) (name : String) (v : MetricValue) (m : Mode)
        (p₁ p₂ : List String),
      t.add name v m = (true, t') → splitName name = p₁ ++ p₂ → p₂ ≠ [] →
      ∃ n2 dm2 es2, getEntryRO t' p₁ = some (.registry n2 dm2 es2))
    ∧ c1Tree.get "v" = some (.intVal 1)
    ∧ c1Tree.get "sub.registry1.v" = some (.strVal "x")
    ∧ c1Tree.get "sub.registry2.v" = some (.floatTok 0)
    ∧ (c1Tree.getRegistry "sub.registry1").isSome = true
    ∧ (c1Tree.getRegistry "sub.registry2").isSome = true
    ∧ ((c1Tree.getRegistry "sub.registry1").bind (fun r => r.get "v"))
        = some (.strVal "x")
    ∧ ((c1Tree.getRegistry "sub.registry2").bind (fun r => r.get "v"))
        = some (.floatTok 0) := by
  refine ⟨?_, ?_, ?_, rfl, rfl, rfl, rfl, rfl, rfl, rfl⟩
  · intro t t' name v m h
    have h2 : getEntryRO t' (splitName name) = some (.metric v m) :=
      addGo_getEntryRO (splitName name) t t' v m h
    simp [Entry.get, h2]
  · intro t p q
    exact getEntryRO_append t p q
  · intro t t' name v m p₁ p₂ h hsplit hne
    have h2 : getEntryRO t' (splitName name) = some (.metric v m) :=
      addGo_getEntryRO (splitName name) t t' v m h
    rw [hsplit] at h2
    exact getEntryRO_prefix_registry h2 hne

/-- C1 witness: a freshly registered metric is returned by `Get` under its
own dotted name. -/
theorem c1_registered_metric_reachable_witness :
    ((mkRoot "" .full).add "a.b" (.intVal 5) .reported).2.get "a.b"
      = some (.intVal 5) :=
  c1_registered_metric_reachable.1 (mkRoot "" .full)
    ((mkRoot "" .full).add "a.b" (.intVal 5) .reported).2 "a.b" (.intVal 5)
    .reported rfl

/-- The `TestRegistryRemove` scenario: int metrics `v`, `sub.registry1.v`
and `sub.registry2.v`. -/
def c5Tree : Entry :=
  ((((mkRoot "" .full).add "v" (.intVal 1) .reported).2.add
      "sub.registry1.v" (.intVal 2) .reported).2.add
    "sub.registry2.v" (.intVal 3) .reported).2

/-- The scenario tree after the three removals of `TestRegistryRemove`. -/
def c5Removed : Entry :=
  ((c5Tree.remove "v").remove "sub.registry1.v").remove "sub.registry2.v"

/-- C5: removal resolved relative to a node deletes exactly the resolved
entry — the single metric, or a sub-registry with its entire subtree (every
extension of the removed path stops resolving, while the metric view of
every path not extending it is untouched); removing an unresolvable path is
a silent no-op, removal is idempotent, and `Get` on a removed path returns
absent afterwards (concretely, the three metrics of the removal scenario
are unreachable after their removals while `sub.registry1` itself
survives). -/
theorem c5_remove_deletes_exactly_resolved_entry :
    (∀ (t : Entry) (name : String),
      getEntryRO t (splitName name) = none → t.remove name = t)
    ∧ (∀ (t : Entry) (p q : List String), wfTree t = true → p ≠ [] →
      p <+: q → getEntryRO (removeGo t p) q = none)
    ∧ (∀ (t : Entry) (p q : List String), ¬ p <+: q →
      metricAt (removeGo t p) q = metricAt t q)
    ∧ (∀ (t : Entry) (p : List String), wfTree t = true →
      removeGo (removeGo t p) p = removeGo t p)
    ∧ c5Removed.get "v" = none
    ∧ c5Removed.get "sub.registry1.v" = none
    ∧ c5Removed.get "sub.registry2.v" = none
    ∧ (c5Removed.getRegistry "sub.registry1").isSome = true := by
  refine ⟨?_, ?_, ?_, ?_, rfl, rfl, rfl, rfl⟩
  · intro t name h
    exact removeGo_none_unchanged (splitName name) t h
  · intro t p q hwf hne hpre
    obtain ⟨r, hr⟩ := hpre
    rw [← hr, getEntryRO_append, removeGo_getEntryRO_none p t hwf hne]
    rfl
  · intro t p q h
    exact removeGo_metricAt_nonpre p t q h
  · intro t p hwf
    cases hp : p with
    | nil => cases t <;> simp [removeGo]
    | cons s rest =>
      exact removeGo_none_unchanged _ _
        (removeGo_getEntryRO_none (s :: rest) t hwf (by simp))

/-- C5 witness: removing the root metric `v` makes its path unresolvable,
and removing an unresolvable path is a no-op. -/
theorem c5_remove_deletes_exactly_resolved_entry_witness :
    getEntryRO (removeGo c5Tree ["v"]) ["v"] = none
      ∧ c5Removed.remove "does.not.exist" = c5Removed :=
  ⟨c5_remove_deletes_exactly_resolved_entry.2.1 c5Tree ["v"] ["v"] rfl
      (by simp) ⟨[], rfl⟩,
   c5_remove_deletes_exactly_resolved_entry.1 c5Removed "does.not.exist" rfl⟩

/-- C7: every operation of the API preserves the naming invariant — each
node's fully-qualified name is the root name extended, segment by segment,
with a dot before each local segment, fixed at creation — and under that
invariant the name of every reachable registry node is fully determined by
the root's name and the node's path (so it can never change); concretely,
`GetOrCreateRegistry("a.b.c")` on a root named "root" yields a leaf named
"root.a.b.c". -/
theorem c7_fully_qualified_name_invariant :
    (∀ (p : List String) (t : Entry),
      namesOkTree t = true → namesOkTree (getOrCreateGo t p).2 = true)
    ∧ (∀ (p : List String) (t : Entry) (v : MetricValue) (m : Mode),
      namesOkTree t = true → namesOkTree (addGo t p v m).2 = true)
    ∧ (∀ (p : List String) (t : Entry),
      namesOkTree t = true → namesOkTree (removeGo t p) = true)
    ∧ (∀ (t : Entry), namesOkTree t = true → namesOkTree t.clear = true)
    ∧ (∀ (p : List String) (nr : String) (dm : Mode)
        (es : List (String × Entry)) (nm : String) (dm' : Mode)
        (es' : List (String × Entry)),
      namesOkTree (.registry nr dm es) = true →
      getEntryRO (.registry nr dm es) p = some (.registry nm dm' es') →
      nm = fullNameOf nr p)
    ∧ ((c3Root.getOrCreateRegistry "a.b.c").1.bind Entry.regName)
        = some "root.a.b.c" := by
  refine ⟨?_, ?_, ?_, ?_, ?_, rfl⟩
  · intro p t h; exact namesOkTree_getOrCreateGo p t h
  · intro p t v m h; exact namesOkTree_addGo p t v m h
  · intro p t h; exact namesOkTree_removeGo p t h
  · intro t h; exact namesOkTree_clear t h
  · intro p nr dm es nm dm' es' h hro
    exact getEntryRO_registry_name p nr dm es nm dm' es' h hro

/-- C7 witness: the name invariant holds after creating `a` under a root
named `r`, and the node reached at path `a` carries exactly the name
`r.a` determined by its position. -/
theorem c7_fully_qualified_name_invariant_witness :
    namesOkTree (getOrCreateGo (mkRoot "r" .full) ["a"]).2 = true
      ∧ "r.a" = fullNameOf "r" ["a"] :=
  ⟨c7_fully_qualified_name_invariant.1 ["a"] (mkRoot "r" .full) rfl,
   c7_fully_qualified_name_invariant.2.2.2.2.1 ["a"] "r" .full
     [("a", Entry.registry "r.a" .full [])] "r.a" .full [] rfl rfl⟩

/-- The `TestRegistryIter` scenario: metrics `sub.registry.v1 = 1`,
`sub.registry.v2 = 2` and `v3 = 3` on the default root. -/
def c6Tree : Entry :=
  ((((mkRoot "" .full).add "sub.registry.v1" (.intVal 1) .reported).2.add
      "sub.registry.v2" (.intVal 2) .reported).2.add
    "v3" (.intVal 3) .reported).2

/-- C6: `Do` with the "full" filter passes to the visitor exactly the
registered metrics, each under its fully-qualified root-relative dotted
name with its value snapshot and regardless of its visibility mode (the
visited pairs are exactly those reachable by path resolution), and it
visits each metric exactly once (the visited names are pairwise distinct in
any well-formed tree with sane segment names); the concrete scenario visits
exactly the three-element set, as a set. -/
theorem c6_do_full_visits_exactly_registered_metrics :
    (∀ (t : Entry), wfTree t = true →
      ∀ (name : String) (v : MetricValue),
        ((name, v) ∈ t.doAll .full
          ↔ ∃ segs m, getEntryRO t segs = some (.metric v m)
              ∧ name = joinAll "" segs))
    ∧ (∀ (t : Entry), wfTree t = true → cleanTree t = true →
        ∀ (f : Mode), ((t.doAll f).map Prod.fst).Nodup)
    ∧ (c6Tree.doAll .full).Perm
        [("sub.registry.v1", .intVal 1), ("sub.registry.v2", .intVal 2),
          ("v3", .intVal 3)] := by
  refine ⟨?_, ?_, by decide⟩
  · intro t hwf name v
    exact mem_doVisit_full_iff t hwf "" name v
  · intro t hwf hcl f
    exact nodup_doVisit_names t hwf hcl f ""

/-- C6 witness: in the iteration scenario the metric `v3 = 3` is visited by
the full-filter `Do`, obtained from the correspondence at its path. -/
theorem c6_do_full_visits_exactly_registered_metrics_witness :
    ("v3", MetricValue.intVal 3) ∈ c6Tree.doAll .full :=
  (c6_do_full_visits_exactly_registered_metrics.1 c6Tree rfl "v3"
      (.intVal 3)).2 ⟨["v3"], .reported, rfl, rfl⟩

end Monitoring

namespace Tlscommon

/-- A config with `enabled = false` and collaborator inputs that would fail
if they were consulted. -/
def disabledConfig : Config := ⟨some false, 0, [], [], [], ⟨0⟩, [], 0, [], ""⟩

/-- C10: `IsEnabled` is false on a nil config and true exactly when the
`Enabled` pointer is unset or points to true (TLS enabled by default), and
whenever it is false `LoadTLSConfig` returns no TLS configuration and no
error, whatever the certificate loaders would do with the other fields (the
result is the same for every loader behaviour, so no other field is
inspected). -/
theorem c10_disabled_tls_loads_nothing :
    isEnabled none = false
    ∧ (∀ c : Config,
        isEnabled (some c) = true ↔ (c.enabled = none ∨ c.enabled = some true))
    ∧ (∀ (lc : CertificateConfig → Option Nat × Option String)
        (lca : List String → Option Nat × List (Option String))
        (cfg : Option Config), isEnabled cfg = false →
        loadTLSConfig lc lca cfg = (none, [])) := by
  refine ⟨rfl, ?_, ?_⟩
  · intro c
    cases h : c.enabled with
    | none => simp [isEnabled, h]
    | some b => cases b <;> simp [isEnabled, h]
  · intro lc lca cfg h
    simp [loadTLSConfig, h]

/-- C10 witness: with loaders that would report errors, a disabled config
still yields no TLS configuration and no error. -/
theorem c10_disabled_tls_loads_nothing_witness :
    loadTLSConfig (fun _ => (none, some "certificate failure"))
      (fun _ => (none, [some "ca failure"])) (some disabledConfig)
      = (none, []) :=
  c10_disabled_tls_loads_nothing.2.2 (fun _ => (none, some "certificate failure"))
    (fun _ => (none, [some "ca failure"])) (some disabledConfig) rfl

end Tlscommon
